import Mathlib

/-!
Verification of the chess-blunders gameplay parser and blunder-detection
engine (`src/pre_processing.py`, resolver part of `src/evaluation.py`).

The Python code is shallowly embedded: strings become `List Char`
manipulations mirroring the exact regex semantics used by the source
(`re.split`, `re.findall` with leftmost-match scanning), Python floats
become exact rationals extended with infinite and NaN sentinels, and
fallible code (Python exceptions: `IndexError`, `TypeError`, `ValueError`,
destructuring `ValueError`) becomes `Option`, with `none` marking a raised
exception.  ASCII inputs are assumed throughout (the character classes
`\d`, `\s`, `\w` are modelled by their ASCII meaning, which is what every
input reaching this code contains).
-/

namespace ChessBlunders

/-- Python regex class `\s` (ASCII): space, tab, newline, carriage return,
vertical tab, form feed. -/
def pySpace (c : Char) : Bool :=
  c = ' ' || c = '\t' || c = '\n' || c = '\r' || c = '\x0b' || c = '\x0c'

/-- Python regex class `\w` (ASCII): letters, digits, underscore. -/
def pyWord (c : Char) : Bool :=
  c.isAlphanum || c = '_'

/-- Is `n` a prefix of `h`?  Building block of Python's substring test. -/
def isPre : List Char → List Char → Bool
  | [], _ => true
  | _ :: _, [] => false
  | a :: as, b :: bs => a = b && isPre as bs

/-- Is `n` a contiguous substring of `h`?  (Python `n in h` on strings.) -/
def isSub : List Char → List Char → Bool
  | n, [] => n.isEmpty
  | n, c :: rest => isPre n (c :: rest) || isSub n rest

/-- Python's `needle in hay` substring test on strings. -/
def pyIn (needle hay : String) : Bool := isSub needle.toList hay.toList

/-- Match of the pattern `\d+\.\s` at the current position
(`pre_processing.py` line 28).  Returns `some k` when the pattern matches
here consuming `k + 1` characters (the digit run, a dot, one whitespace);
backtracking over the greedy `\d+` cannot succeed because any shorter digit
run is followed by a digit, not by `.`. -/
def matchNum1 (cs : List Char) : Option Nat :=
  let ds := cs.takeWhile Char.isDigit
  if ds.isEmpty then none
  else
    match cs.drop ds.length with
    | '.' :: c2 :: _ => if pySpace c2 then some (ds.length + 1) else none
    | _ => none

/-- The `re.split` scan, one character at a time: `skip` counts the
characters still to pass over because they belong to an already-found
match.  At `skip = 0` the matcher `m1` is tried at the current position;
a match of `k + 1` characters terminates the current piece and skips the
remaining `k` matched characters. -/
def resplitAux (m1 : List Char → Option Nat) : Nat → List Char → List (List Char)
  | _, [] => [[]]
  | n + 1, _ :: rest => resplitAux m1 n rest
  | 0, c :: rest =>
    match m1 (c :: rest) with
    | some k => [] :: resplitAux m1 k rest
    | none =>
      match resplitAux m1 0 rest with
      | [] => [[c]]
      | p :: ps => (c :: p) :: ps

/-- `re.split('\d+\.\s', ·)`: the pieces of the input between
non-overlapping leftmost matches of the move-number marker. -/
def resplitNum (cs : List Char) : List (List Char) := resplitAux matchNum1 0 cs

/-- Match of the pattern `\s\d+\.\.\.\s` at the current position
(`pre_processing.py` line 31), consuming `k + 1` characters on success. -/
def matchEll1 (cs : List Char) : Option Nat :=
  match cs with
  | [] => none
  | c :: rest =>
    if pySpace c then
      let ds := rest.takeWhile Char.isDigit
      if ds.isEmpty then none
      else
        match rest.drop ds.length with
        | '.' :: '.' :: '.' :: c2 :: _ =>
          if pySpace c2 then some (ds.length + 4) else none
        | _ => none
    else none

/-- `re.split('\s\d+\.\.\.\s', ·)`: splits a full-move chunk into its
half-move substrings. -/
def resplitEll (cs : List Char) : List (List Char) := resplitAux matchEll1 0 cs

/-- Match of the first alternative `#\-?\d+` of the evaluation pattern at
the current position (`pre_processing.py` lines 35-36).  When the optional
`-` is present but no digit follows it, retrying without the `-` also
fails (the next char would be `-`, not a digit), so the whole alternative
fails. -/
def matchMate (cs : List Char) : Option (List Char) :=
  match cs with
  | [] => none
  | c :: rest =>
    if c = '#' then
      if rest.head? = some '-' then
        let ds := rest.tail.takeWhile Char.isDigit
        if ds.isEmpty then none else some ('#' :: '-' :: ds)
      else
        let ds := rest.takeWhile Char.isDigit
        if ds.isEmpty then none else some ('#' :: ds)
    else none

/-- Match of the second alternative `\-?\d+\.\d+` without its optional
sign at the current position.  Backtracking over the greedy first `\d+`
cannot help: any shorter digit run is followed by a digit, not `.`. -/
def matchUDec (cs : List Char) : Option (List Char) :=
  let d1 := cs.takeWhile Char.isDigit
  if d1.isEmpty then none
  else
    let r := cs.dropWhile Char.isDigit
    if r.head? = some '.' then
      let d2 := r.tail.takeWhile Char.isDigit
      if d2.isEmpty then none else some (d1 ++ '.' :: d2)
    else none

/-- Match of the alternative `\-?\d+\.\d+` at the current position.  When
the leading `-` is consumed and the rest fails, the regex retries without
the `-`, which fails too since the position then starts with `-`, not a
digit. -/
def matchDec (cs : List Char) : Option (List Char) :=
  match cs with
  | [] => none
  | c :: rest =>
    if c = '-' then (matchUDec rest).map fun m => '-' :: m
    else matchUDec cs

/-- `re.findall('#\-?\d+|\-?\d+\.\d+', s)[0]` when a match exists, else
the empty string (`pre_processing.py` lines 35-38): leftmost match, first
alternative preferred at each position. -/
def findEval : List Char → List Char
  | [] => []
  | c :: rest =>
    ((matchMate (c :: rest)).or (matchDec (c :: rest))).getD (findEval rest)

/-- The character class `[!|?]` of the annotation pattern
(`pre_processing.py` line 39) - note it literally includes `|`. -/
def annChar (c : Char) : Bool := c = '!' || c = '|' || c = '?'

/-- First non-empty run of `[!|?]` characters:
`list(filter(None, re.findall('[!|?]*', tok)))[0]` or `""` when no such
run exists. -/
def findAnn : List Char → List Char
  | [] => []
  | c :: rest =>
    if annChar c then c :: rest.takeWhile annChar else findAnn rest

/-- `"".join(re.findall('\w|\-', tok))` (`pre_processing.py` line 44):
keeps word characters and `-`, dropping annotation glyphs and the like. -/
def cleanMove (cs : List Char) : List Char :=
  cs.filter (fun c => pyWord c || c = '-')

/-- One half-move record.  The Python code represents it as a list
`[move, eval, ann]` that the Material Tracker later extends with
remaining-piece counts; `rem` holds those appended counts in order, so a
3-element Python list has `rem = []` and a 4-element one has `rem = [n]`. -/
structure Half where
  move : String
  eval : String
  ann : String
  rem : List Int
deriving DecidableEq, Repr

/-- Tokenization of one half-move substring (`pre_processing.py` lines
32-44): move token is everything before the first space; the evaluation is
matched over the whole substring; the annotation run is matched over the
raw token; finally the token is cleaned. -/
def tokenizeHalf (cs : List Char) : Half :=
  let tok := cs.takeWhile (fun c => c ≠ ' ')
  { move := ⟨cleanMove tok⟩
    eval := ⟨findEval cs⟩
    ann := ⟨findAnn tok⟩
    rem := [] }

/-- `PreProcessing.convert_gameplay` (`pre_processing.py` lines 10-46):
split the blob on move-number markers, drop the leading piece, split each
chunk on ellipsis markers, and tokenize every half-move substring. -/
def convert_gameplay (s : String) : List (List Half) :=
  ((resplitNum s.toList).drop 1).map fun chunk =>
    (resplitEll chunk).map tokenizeHalf

/-- A normalized evaluation value: a Python float holding an exact decimal,
`float("inf")`, `float("-inf")`, or the NaN produced by `inf - inf`.
Finite values are exact rationals (the decimal strings the code parses are
exact decimals; the spec speaks of real numbers, so no binary rounding is
modelled). -/
inductive EVal
  | neg_inf
  | fin (q : ℚ)
  | pos_inf
  | nan
deriving DecidableEq, Repr

/-- IEEE-style subtraction on `EVal` (what Python float `-` does on these
values): NaN propagates, `∞ - ∞` and `-∞ - (-∞)` give NaN, an infinity
dominates a finite value. -/
def EVal.sub : EVal → EVal → EVal
  | .nan, _ => .nan
  | _, .nan => .nan
  | .pos_inf, .pos_inf => .nan
  | .pos_inf, _ => .pos_inf
  | .neg_inf, .neg_inf => .nan
  | .neg_inf, _ => .neg_inf
  | .fin _, .pos_inf => .neg_inf
  | .fin _, .neg_inf => .pos_inf
  | .fin a, .fin b => .fin (a - b)

/-- Unary minus on `EVal`. -/
def EVal.neg : EVal → EVal
  | .nan => .nan
  | .pos_inf => .neg_inf
  | .neg_inf => .pos_inf
  | .fin q => .fin (-q)

/-- The value held by the Python variables `eval_w` / `eval_b` /
`eval_b_before` in `find_blunder`: either still the raw (necessarily
empty) string when no branch of the normalization fired, or a numeric
value. -/
inductive Slot
  | raw (s : String)
  | val (e : EVal)
deriving DecidableEq, Repr

/-- Python subtraction on two such variables: defined only when both are
numbers, a `TypeError` (modelled `none`) otherwise. -/
def slotSub : Slot → Slot → Option EVal
  | .val a, .val b => some (a.sub b)
  | _, _ => none

/-- Natural value of a digit run. -/
def digitsValN (ds : List Char) : ℕ :=
  ds.foldl (fun a c => 10 * a + (c.toNat - 48)) 0

/-- Python's `float(s)` restricted to plain decimal literals: an optional
sign, then `d+`, `d+.d*`, `.d+` or `d*.d+`.  Forms outside this subset
(exponents, `inf`, `nan`, underscores, surrounding whitespace) are not
modelled and return `none` (= `ValueError`); every string this pipeline
feeds to `float` is a plain decimal of the shape `\-?\d+\.\d+`. -/
def pyFloat (s : String) : Option ℚ :=
  let cs := s.toList
  let sgncs : ℚ × List Char :=
    match cs with
    | '-' :: t => (-1, t)
    | '+' :: t => (1, t)
    | t => (1, t)
  let d1 := sgncs.2.takeWhile Char.isDigit
  match sgncs.2.drop d1.length with
  | [] => if d1.isEmpty then none else some (sgncs.1 * (digitsValN d1 : ℚ))
  | '.' :: r2 =>
    let d2 := r2.takeWhile Char.isDigit
    if ¬(r2.drop d2.length).isEmpty then none
    else if d1.isEmpty && d2.isEmpty then none
    else some (sgncs.1 * ((digitsValN d1 : ℚ) + (digitsValN d2 : ℚ) / (10 : ℚ) ^ d2.length))
  | _ => none

/-- Normalization of White's raw evaluation string (`pre_processing.py`
lines 116-121): `-#` substring → `-∞`, else `#` substring → `+∞`, else a
non-empty string goes through `float` (`none` = `ValueError`), else the
variable keeps the raw empty string. -/
def normW (s : String) : Option Slot :=
  if pyIn "-#" s then some (.val .neg_inf)
  else if pyIn "#" s then some (.val .pos_inf)
  else if s = "" then some (.raw s)
  else (pyFloat s).map fun q => .val (.fin q)

/-- Normalization of Black's raw evaluation string (`pre_processing.py`
lines 123-130): signs inverted for the mate sentinels, and an empty string
falls back to White's already-normalized value `w`. -/
def normB (s : String) (w : Slot) : Option Slot :=
  if pyIn "-#" s then some (.val .pos_inf)
  else if pyIn "#" s then some (.val .neg_inf)
  else if s = "" then some w
  else (pyFloat s).map fun q => .val (.fin q)

/-- One blunder event `[move_number, player, move_string, annotation,
diff_in_eval]` as appended by `find_blunder`. -/
structure Blunder where
  idx : Nat
  player : String
  move : String
  ann : String
  delta : EVal
deriving DecidableEq, Repr

/-- The annotation test of `pre_processing.py` lines 132 and 134:
`ann == "?" or ann == "??" or ann == "?!"`. -/
def isBad (a : String) : Bool :=
  a = "?" || a = "??" || a = "?!"

/-- The body of one iteration of the `find_blunder` loop on a two-half
ply (`pre_processing.py` lines 114-137): destructure the two 4-element
half-move records (a `ValueError` when the shape differs, `none`),
normalize the two evaluations, emit the White event and then the Black
event when the annotation is one of `?`/`??`/`?!`, and return the events
together with the new `eval_b_before`.  Each step may raise as in
Python (`slotSub` is a `TypeError` on a non-numeric operand). -/
def blunderStep (prior : Slot) (n : Nat) (w b : Half) : Option (List Blunder × Slot) :=
  if w.rem.length = 1 ∧ b.rem.length = 1 then
    (normW w.eval).bind fun sw =>
    (normB b.eval sw).bind fun sb =>
    (if isBad w.ann then (slotSub prior sw).map fun d => [⟨n, "w", w.move, w.ann, d⟩]
     else some []).bind fun we =>
    (if isBad b.ann then (slotSub sw sb).map fun d => [⟨n, "b", b.move, b.ann, d.neg⟩]
     else some []).map fun be =>
    (we ++ be, sb)
  else none

/-- The scanning loop of `PreProcessing.find_blunder` (`pre_processing.py`
lines 109-139), with the running `eval_b_before` made an explicit
argument `prior` and the 1-based move number `n`.  A ply of fewer than two
half-moves breaks the loop; any other ply goes through `blunderStep`. -/
def findBlunderAux (prior : Slot) (n : Nat) : List (List Half) → Option (List Blunder)
  | [] => some []
  | [] :: _ => some []
  | [_] :: _ => some []
  | [w, b] :: rest =>
    (blunderStep prior n w b).bind fun es_sb =>
      (findBlunderAux es_sb.2 (n + 1) rest).map fun t => es_sb.1 ++ t
  | (_ :: _ :: _ :: _) :: _ => none

/-- `PreProcessing.find_blunder`: scan with `eval_b_before = 0` and move
number starting at 1. -/
def find_blunder (g : List (List Half)) : Option (List Blunder) :=
  findBlunderAux (.val (.fin 0)) 1 g

/-- The loop of `PreProcessing.add_remaining_pieces` (`pre_processing.py`
lines 164-182) carrying the running counters `num_white_pieces` and
`num_black_pieces`, and with the white-count append
`modified_gameplay_list[i+1][0].append(...)` that iteration `i` performs
on the NEXT ply re-expressed as a pending value applied when the loop
reaches that ply (`none` before the first ply).  A two-half ply applies
both capture decrements and appends the black count to the black half;
any other non-empty ply applies only the white half's capture decrement;
an empty ply raises `IndexError` (`none`, either at the `[i+1][0]`
indexing or at `move[0][0]`).  Whenever a next ply exists, the white
count is sent to it as the pending append. -/
def addRemAux : Int → Int → Option Int → List (List Half) → Option (List (List Half))
  | _, _, _, [] => some []
  | _, _, _, [] :: _ => none
  | wl, bl, none, [w, b] :: rest =>
    let bl2 := if pyIn "x" w.move then bl - 1 else bl
    let wl2 := if pyIn "x" b.move then wl - 1 else wl
    (addRemAux wl2 bl2 (some wl2) rest).map
      fun t => [w, { b with rem := b.rem ++ [bl2] }] :: t
  | wl, bl, some v, [w, b] :: rest =>
    let w1 : Half := { w with rem := w.rem ++ [v] }
    let bl2 := if pyIn "x" w1.move then bl - 1 else bl
    let wl2 := if pyIn "x" b.move then wl - 1 else wl
    (addRemAux wl2 bl2 (some wl2) rest).map
      fun t => [w1, { b with rem := b.rem ++ [bl2] }] :: t
  | wl, bl, none, (w :: tail) :: rest =>
    let bl2 := if pyIn "x" w.move then bl - 1 else bl
    (addRemAux wl bl2 (some wl) rest).map
      fun t => (w :: tail) :: t
  | wl, bl, some v, (w :: tail) :: rest =>
    let w1 : Half := { w with rem := w.rem ++ [v] }
    let bl2 := if pyIn "x" w1.move then bl - 1 else bl
    (addRemAux wl bl2 (some wl) rest).map
      fun t => (w1 :: tail) :: t

/-- The final `modified_gameplay_list[0][0].append(16)` of
`pre_processing.py` line 184: append the fixed initial value 16 to the
first White half-move; an empty game or an empty first ply raises
`IndexError` (`none`). -/
def finalizeRem : Option (List (List Half)) → Option (List (List Half))
  | none => none
  | some [] => none
  | some ([] :: _) => none
  | some ((w :: t) :: rest) => some (({ w with rem := w.rem ++ [16] } :: t) :: rest)

/-- `PreProcessing.add_remaining_pieces` (`pre_processing.py` lines
141-186): run the loop from counters 16/16 with no pending append, then
apply the final fixed append of 16. -/
def add_remaining_pieces (g : List (List Half)) : Option (List (List Half)) :=
  finalizeRem (addRemAux 16 16 none g)

/-- A resolved move: the moving piece (the code's one-letter string, `"P"`
for pawns) and its destination square or castling tag. -/
structure ResolvedMove where
  piece : String
  square : String
deriving DecidableEq, Repr

/-- The promotion-suffix stripping of `evaluation.py` lines 77-78 /
107-108: drop a trailing uppercase letter other than `O`.  An empty token
raises `IndexError` at `move[-1]` (`none`). -/
def stripPromo (cs : List Char) : Option (List Char) :=
  match cs.getLast? with
  | none => none
  | some c => some (if c.isUpper && c ≠ 'O' then cs.dropLast else cs)

/-- `move[-2:]`: the trailing two characters (the whole string when it is
shorter). -/
def lastTwo (cs : List Char) : List Char := cs.drop (cs.length - 2)

/-- The piece/square resolution of the blunder path (`evaluation.py`
lines 77-92): strip the promotion suffix, take the last two characters as
the square, then classify by the first character, with the castling tags
tested as substrings of the move string (`"O-O-O" in move` before
`"O-O" in move`).  An empty string at either indexing raises `IndexError`
(`none`). -/
def resolveBlunderMove (mv : String) : Option ResolvedMove :=
  match stripPromo mv.toList with
  | none => none
  | some cs =>
    match cs with
    | [] => none
    | c :: _ =>
      if c.isUpper then
        if c = 'O' then
          if pyIn "O-O-O" ⟨cs⟩ then some ⟨"K", "O-O-O"⟩
          else if pyIn "O-O" ⟨cs⟩ then some ⟨"K", "O-O"⟩
          else some ⟨"K", ⟨lastTwo cs⟩⟩
        else some ⟨⟨[c]⟩, ⟨lastTwo cs⟩⟩
      else some ⟨"P", ⟨lastTwo cs⟩⟩

/-- The piece/square resolution of the all-moves path (`evaluation.py`
lines 107-122).  There `half_move` is the whole 4-element record, so the
castling test `"O-O-O" in half_move` is Python list membership: it asks
whether some element of `[move, eval, ann, count]` equals the tag (the
stripped move string, the evaluation string or the annotation string; the
appended integer counts never equal a string). -/
def resolveMoveHalf (h : Half) : Option ResolvedMove :=
  match stripPromo h.move.toList with
  | none => none
  | some cs =>
    match cs with
    | [] => none
    | c :: _ =>
      let mv : String := ⟨cs⟩
      if c.isUpper then
        if c = 'O' then
          if mv = "O-O-O" || h.eval = "O-O-O" || h.ann = "O-O-O" then some ⟨"K", "O-O-O"⟩
          else if mv = "O-O" || h.eval = "O-O" || h.ann = "O-O" then some ⟨"K", "O-O"⟩
          else some ⟨"K", ⟨lastTwo cs⟩⟩
        else some ⟨⟨[c]⟩, ⟨lastTwo cs⟩⟩
      else some ⟨"P", ⟨lastTwo cs⟩⟩

/-! Helper notions used only to state and settle the claims. -/

/-- The remaining-piece values attached to a ply's first (White)
half-move. -/
def headRems : List Half → List Int
  | [] => []
  | h :: _ => h.rem

/-- The remaining-piece values attached to a ply's half-moves other than
the first (for well-formed plies, Black's). -/
def tailRems (ply : List Half) : List Int :=
  ((ply.drop 1).map Half.rem).flatten

/-- All White-half remaining-piece values of a game, in ply order. -/
def whiteRems (g : List (List Half)) : List Int :=
  (g.map headRems).flatten

/-- All Black-half remaining-piece values of a game, in ply order. -/
def blackRems (g : List (List Half)) : List Int :=
  (g.map tailRems).flatten

/-- All remaining-piece values of a game in half-move order: White of
ply 1, Black of ply 1, White of ply 2, ... -/
def remSeq (g : List (List Half)) : List Int :=
  (g.map fun ply => (ply.map Half.rem).flatten).flatten

/-- `l` is non-increasing: every element is at most its predecessor. -/
def nonInc : List Int → Bool
  | [] => true
  | [_] => true
  | a :: b :: t => b ≤ a && nonInc (b :: t)

/-- Does the ply decrement the black counter?  (Its White half-move
carries a capture marker.) -/
def wCapB : List Half → Bool
  | [] => false
  | h :: _ => pyIn "x" h.move

/-- Number of plies that decrement the black counter. -/
def wCap (g : List (List Half)) : Nat := g.countP wCapB

/-- Does the ply decrement the white counter?  (It is a two-half ply whose
Black half-move carries a capture marker.) -/
def bCapB : List Half → Bool
  | [_, b] => pyIn "x" b.move
  | _ => false

/-- Number of plies that decrement the white counter. -/
def bCap (g : List (List Half)) : Nat := g.countP bCapB

/-- Every half-move of the game still has its remaining-pieces slot
unset, as the Ply Tokenizer produces it. -/
abbrev allClean (g : List (List Half)) : Prop :=
  ∀ ply ∈ g, ∀ h ∈ ply, h.rem = ([] : List Int)

/-- A non-empty all-digit run. -/
def digits1 (ds : List Char) : Bool := !ds.isEmpty && ds.all Char.isDigit

/-- The mate shape `#` · optional `-` · digits, the exact language of the
first alternative of the tokenizer's evaluation pattern. -/
def isMateShape (cs : List Char) : Bool :=
  match cs with
  | [] => false
  | c :: rest => c = '#' && digits1 (if rest.head? = some '-' then rest.tail else rest)

/-- The unsigned decimal shape digits · `.` · digits. -/
def isUDecShape (cs : List Char) : Bool :=
  !(cs.takeWhile Char.isDigit).isEmpty
    && ((cs.dropWhile Char.isDigit).head? = some '.')
    && digits1 (cs.dropWhile Char.isDigit).tail

/-- The decimal shape optional `-` · digits · `.` · digits, the exact
language of the second alternative of the tokenizer's evaluation
pattern. -/
def isDecShape (cs : List Char) : Bool :=
  if cs.head? = some '-' then isUDecShape cs.tail else isUDecShape cs

/-- Does the blob contain a move-number marker (a position where
`\d+\.\s` matches)? -/
def hasMarker : List Char → Bool
  | [] => false
  | c :: rest => (matchNum1 (c :: rest)).isSome || hasMarker rest

/-! ### Basic facts about the substring test -/

lemma isPre_mem {n h : List Char} (hp : isPre n h = true) : ∀ c ∈ n, c ∈ h := by
  induction n generalizing h with
  | nil => intro c hc; cases hc
  | cons a as ih =>
    cases h with
    | nil => simp [isPre] at hp
    | cons b bs =>
      simp only [isPre, Bool.and_eq_true, decide_eq_true_eq] at hp
      intro c hc
      rcases List.mem_cons.mp hc with rfl | hc
      · exact List.mem_cons.mpr (Or.inl hp.1)
      · exact List.mem_cons.mpr (Or.inr (ih hp.2 c hc))

lemma isSub_mem {n h : List Char} (hs : isSub n h = true) : ∀ c ∈ n, c ∈ h := by
  induction h with
  | nil =>
    intro c hc
    simp only [isSub, List.isEmpty_iff] at hs
    subst hs; cases hc
  | cons b bs ih =>
    simp only [isSub, Bool.or_eq_true] at hs
    intro c hc
    rcases hs with hs | hs
    · exact isPre_mem hs c hc
    · exact List.mem_cons.mpr (Or.inr (ih hs c hc))

lemma isSub_eq_false {c : Char} {n h : List Char} (hn : c ∈ n) (hh : c ∉ h) :
    isSub n h = false := by
  cases e : isSub n h with
  | false => rfl
  | true => exact absurd (isSub_mem e c hn) hh

lemma isPre_length_le {n h : List Char} (hp : isPre n h = true) : n.length ≤ h.length := by
  induction n generalizing h with
  | nil => simp
  | cons a as ih =>
    cases h with
    | nil => simp [isPre] at hp
    | cons b bs =>
      simp only [isPre, Bool.and_eq_true] at hp
      simpa using ih hp.2

lemma isSub_length_le {n h : List Char} (hs : isSub n h = true) : n.length ≤ h.length := by
  induction h with
  | nil => simp only [isSub, List.isEmpty_iff] at hs; simp [hs]
  | cons b bs ih =>
    simp only [isSub, Bool.or_eq_true] at hs
    rcases hs with hs | hs
    · exact isPre_length_le hs
    · exact le_trans (ih hs) (by simp)

/-! ### C5 - evaluation normalization polarity -/

/-- **C5** (confirmed).  The Evaluation Normalizer's polarity: a raw
string containing `-#` gives `-∞` for White and `+∞` for Black; a string
containing `#` but not `-#` gives `+∞` for White and `-∞` for Black; any
other non-empty string that `float` parses (such as `"1.25"`) gives that
decimal value for either side, and `"1.25"` parses to `5/4`. -/
theorem claim5_eval_polarity :
    (∀ s : String, pyIn "-#" s = true →
      normW s = some (.val .neg_inf) ∧ ∀ w, normB s w = some (.val .pos_inf))
    ∧ (∀ s : String, pyIn "-#" s = false → pyIn "#" s = true →
      normW s = some (.val .pos_inf) ∧ ∀ w, normB s w = some (.val .neg_inf))
    ∧ (∀ (s : String) (q : ℚ), pyIn "-#" s = false → pyIn "#" s = false → s ≠ "" →
      pyFloat s = some q →
      normW s = some (.val (.fin q)) ∧ ∀ w, normB s w = some (.val (.fin q)))
    ∧ pyFloat "1.25" = some (5 / 4) := by
  have hq : pyFloat "1.25" = some (5 / 4) := by
    show some ((1 : ℚ) * ((digitsValN ['1'] : ℚ) + (digitsValN ['2', '5'] : ℚ) / (10 : ℚ) ^ (2 : ℕ)))
      = some (5 / 4)
    have e1 : digitsValN ['1'] = 1 := rfl
    have e2 : digitsValN ['2', '5'] = 25 := rfl
    rw [e1, e2]
    norm_num
  refine ⟨?_, ?_, ?_, hq⟩
  · intro s h
    constructor
    · simp [normW, h]
    · intro w; simp [normB, h]
  · intro s h1 h2
    constructor
    · simp [normW, h1, h2]
    · intro w; simp [normB, h1, h2]
  · intro s q h1 h2 h3 h4
    constructor
    · simp [normW, h1, h2, h3, h4]
    · intro w; simp [normB, h1, h2, h3, h4]

/-- Witness for C5 at the concrete inputs of the claim: White's `"-#3"`,
Black's `"#3"`, and `"1.25"`. -/
theorem claim5_witness :
    normW "-#3" = some (.val .neg_inf)
    ∧ normB "#3" (.val (.fin 0)) = some (.val .neg_inf)
    ∧ normW "1.25" = some (.val (.fin (5 / 4))) :=
  ⟨(claim5_eval_polarity.1 "-#3" (by decide)).1,
   (claim5_eval_polarity.2.1 "#3" (by decide) (by decide)).2 _,
   (claim5_eval_polarity.2.2.1 "1.25" (5 / 4) (by decide) (by decide) (by decide)
     claim5_eval_polarity.2.2.2).1⟩

/-! ### C8 - short move tokens in the resolver -/

/-- **C8** (corrected): counterexample to the claim that every token with
fewer than two characters after stripping fails with `UnresolvedMove`.
The one-character token `"b"` returns a `ResolvedMove` (a pawn with a
one-character square), and the token `"Q"` (empty after stripping) raises
a plain `IndexError`; no `UnresolvedMove` error exists in the code. -/
theorem claim8_counterexample :
    resolveBlunderMove "b" = some ⟨"P", "b"⟩ ∧ resolveBlunderMove "Q" = none := by
  decide

/-- **C8 amended**: for tokens with fewer than two characters after
promotion-suffix stripping the resolver does not produce an
`UnresolvedMove` error (none exists): an empty token, or a token that
strips to empty, raises `IndexError`; a token that strips to a single
character returns a `ResolvedMove` whose square is that single character
(shorter than a board square). -/
theorem claim8_short_token :
    resolveBlunderMove "" = none
    ∧ (∀ mv : String, stripPromo mv.toList = some [] → resolveBlunderMove mv = none)
    ∧ (∀ (mv : String) (c : Char), stripPromo mv.toList = some [c] →
        resolveBlunderMove mv =
          some ⟨if c.isUpper then (if c = 'O' then "K" else ⟨[c]⟩) else "P", ⟨[c]⟩⟩) := by
  refine ⟨by decide, ?_, ?_⟩
  · intro mv h
    unfold resolveBlunderMove
    rw [h]
  · intro mv c h
    have h5 : pyIn "O-O-O" (⟨[c]⟩ : String) = false := by
      cases e : pyIn "O-O-O" (⟨[c]⟩ : String) with
      | false => rfl
      | true =>
        have := isSub_length_le e
        simp [pyIn] at this
    have h3 : pyIn "O-O" (⟨[c]⟩ : String) = false := by
      cases e : pyIn "O-O" (⟨[c]⟩ : String) with
      | false => rfl
      | true =>
        have := isSub_length_le e
        simp [pyIn] at this
    unfold resolveBlunderMove
    rw [h]
    have hl2 : lastTwo [c] = [c] := rfl
    by_cases hu : c.isUpper
    · by_cases ho : c = 'O'
      · subst ho
        simp [hu, h5, h3, hl2]
      · simp [hu, ho, hl2]
    · simp [hu, hl2]

/-- Witness for C8 at the concrete token `"b"`. -/
theorem claim8_witness : resolveBlunderMove "b" = some ⟨"P", "b"⟩ := by
  have := claim8_short_token.2.2 "b" 'b' (by decide)
  simpa using this

/-! ### C9 - castling resolution -/

/-- **C9** (corrected): counterexample to "every move token containing
`O-O-O` resolves to King with `O-O-O`": the blunder path classifies by
the first character, so the token `"aO-O-O"` (which contains the long
tag) resolves to a pawn with square `"-O"`. -/
theorem claim9_counterexample :
    pyIn "O-O-O" "aO-O-O" = true ∧ resolveBlunderMove "aO-O-O" = some ⟨"P", "-O"⟩ := by
  decide

/-- **C9 amended**: castling resolution holds for tokens whose first
character (after stripping) is `O`.  In the blunder path the tags are
substring tests, the long one first; in the all-moves path the test is
Python list membership, so the tag must equal the (stripped) move string,
or coincidentally the evaluation or annotation string. -/
theorem claim9_castling :
    (∀ (mv : String) (cs : List Char), stripPromo mv.toList = some cs →
        cs.head? = some 'O' →
        (pyIn "O-O-O" ⟨cs⟩ = true → resolveBlunderMove mv = some ⟨"K", "O-O-O"⟩)
        ∧ (pyIn "O-O-O" ⟨cs⟩ = false → pyIn "O-O" ⟨cs⟩ = true →
            resolveBlunderMove mv = some ⟨"K", "O-O"⟩))
    ∧ (∀ h : Half, stripPromo h.move.toList = some "O-O-O".toList →
        resolveMoveHalf h = some ⟨"K", "O-O-O"⟩)
    ∧ (∀ h : Half, stripPromo h.move.toList = some "O-O".toList →
        h.eval ≠ "O-O-O" → h.ann ≠ "O-O-O" →
        resolveMoveHalf h = some ⟨"K", "O-O"⟩) := by
  refine ⟨?_, ?_, ?_⟩
  · intro mv cs hstrip hhead
    cases cs with
    | nil => simp at hhead
    | cons c t =>
      have hc : c = 'O' := by simpa using hhead
      subst hc
      constructor
      · intro hlong
        unfold resolveBlunderMove
        rw [hstrip]
        simp [show ('O').isUpper = true from rfl, hlong]
      · intro hlong hshort
        unfold resolveBlunderMove
        rw [hstrip]
        simp [show ('O').isUpper = true from rfl, hlong, hshort]
  · intro h hstrip
    rw [show ("O-O-O".toList : List Char) = ['O', '-', 'O', '-', 'O'] from rfl] at hstrip
    unfold resolveMoveHalf
    rw [hstrip]
    simp [show ('O').isUpper = true from rfl,
      show ((⟨['O', '-', 'O', '-', 'O']⟩ : String) = "O-O-O") from rfl]
  · intro h hstrip he ha
    rw [show ("O-O".toList : List Char) = ['O', '-', 'O'] from rfl] at hstrip
    unfold resolveMoveHalf
    rw [hstrip]
    have e1 : (⟨['O', '-', 'O']⟩ : String) = "O-O" := rfl
    have ne1 : ("O-O" : String) ≠ "O-O-O" := by decide
    simp [show ('O').isUpper = true from rfl, e1, ne1, he, ha]

/-- Witness for C9: the exact tokens `"O-O-O"` (blunder path) and
`"O-O"` (all-moves path). -/
theorem claim9_witness :
    resolveBlunderMove "O-O-O" = some ⟨"K", "O-O-O"⟩
    ∧ resolveMoveHalf ⟨"O-O", "1.0", "", [16]⟩ = some ⟨"K", "O-O"⟩ :=
  ⟨(claim9_castling.1 "O-O-O" "O-O-O".toList (by decide) (by decide)).1 (by decide),
   claim9_castling.2.2 ⟨"O-O", "1.0", "", [16]⟩ (by decide) (by decide) (by decide)⟩

/-! ### C7 - tokenizer failure behavior -/

/-- **C7** (corrected): counterexample to "the tokenizer fails with
`MalformedGame`".  A blob with no move-number markers silently returns
the empty ply sequence, and a half-move whose token strips to empty is
silently returned with an empty move string. -/
theorem claim7_counterexample :
    convert_gameplay "no markers here" = []
    ∧ convert_gameplay "1. ?? 1.0" = [[⟨"", "1.0", "??", []⟩]] := by
  decide

/-- The split scan returns the whole input as the single piece when no
position matches the move-number pattern. -/
lemma resplitAux_no_marker {cs : List Char} (h : hasMarker cs = false) :
    resplitAux matchNum1 0 cs = [cs] := by
  induction cs with
  | nil => rfl
  | cons c rest ih =>
    rw [hasMarker] at h
    cases hm : matchNum1 (c :: rest) with
    | some k => rw [hm] at h; simp at h
    | none =>
      rw [hm] at h
      simp only [Option.isSome_none, Bool.false_or] at h
      have ih2 : resplitAux matchNum1 0 rest = [rest] := ih h
      simp only [resplitAux, hm, ih2]

/-- **C7 amended**: the tokenizer raises no error at all.  A blob with no
move-number marker yields the empty ply sequence (not a `MalformedGame`
failure), and a half-move whose token contains no word or `-` characters
is returned with an empty move string (not rejected). -/
theorem claim7_tokenizer_no_failure :
    (∀ s : String, hasMarker s.toList = false → convert_gameplay s = [])
    ∧ (∀ cs : List Char,
        (∀ c ∈ cs.takeWhile (fun c => c ≠ ' '), pyWord c = false ∧ c ≠ '-') →
        (tokenizeHalf cs).move = "") := by
  constructor
  · intro s h
    unfold convert_gameplay resplitNum
    rw [resplitAux_no_marker h]
    rfl
  · intro cs h
    show (⟨cleanMove (cs.takeWhile (fun c => c ≠ ' '))⟩ : String) = ""
    have hnil : cleanMove (cs.takeWhile (fun c => c ≠ ' ')) = [] := by
      apply List.filter_eq_nil_iff.mpr
      intro a ha
      rcases h a ha with ⟨h1, h2⟩
      simp [h1, h2]
    rw [hnil]

/-- Witness for C7 at the blobs of the counterexample. -/
theorem claim7_witness :
    convert_gameplay "no markers here" = []
    ∧ (tokenizeHalf "?? 1.0".toList).move = "" :=
  ⟨claim7_tokenizer_no_failure.1 "no markers here" (by decide),
   claim7_tokenizer_no_failure.2 "?? 1.0".toList (by decide)⟩

/-! ### C10 - shapes of tokenizer-produced evaluation strings -/

lemma takeWhile_all_self (p : Char → Bool) (l : List Char) :
    (l.takeWhile p).all p = true := by
  rw [List.all_eq_true]
  intro x hx
  exact List.mem_takeWhile_imp hx

lemma matchMate_shape {cs m : List Char} (h : matchMate cs = some m) :
    isMateShape m = true := by
  cases cs with
  | nil => simp [matchMate] at h
  | cons c rest =>
    simp only [matchMate] at h
    by_cases hc : c = '#'
    · rw [if_pos hc] at h
      by_cases hh : rest.head? = some '-'
      · rw [if_pos hh] at h
        by_cases he : (rest.tail.takeWhile Char.isDigit).isEmpty
        · rw [if_pos he] at h; simp at h
        · rw [if_neg he] at h
          obtain rfl : ('#' :: '-' :: rest.tail.takeWhile Char.isDigit) = m := by
            simpa using h
          simp [isMateShape, digits1, he, takeWhile_all_self]
      · rw [if_neg hh] at h
        by_cases he : (rest.takeWhile Char.isDigit).isEmpty
        · rw [if_pos he] at h; simp at h
        · rw [if_neg he] at h
          obtain rfl : ('#' :: rest.takeWhile Char.isDigit) = m := by
            simpa using h
          have hh2 : (rest.takeWhile Char.isDigit).head? ≠ some '-' := by
            cases hr : rest.takeWhile Char.isDigit with
            | nil => simp
            | cons a t =>
              have ha : Char.isDigit a = true :=
                List.mem_takeWhile_imp (by rw [hr]; exact List.mem_cons_self a t)
              simp only [List.head?_cons, ne_eq, Option.some.injEq]
              intro had
              subst had
              exact absurd ha (by decide)
          simp [isMateShape, hh2, digits1, he, takeWhile_all_self]
    · rw [if_neg hc] at h; simp at h

lemma takeWhile_app_eq {p : Char → Bool} {l1 l2 : List Char} {c : Char}
    (h1 : l1.all p = true) (hc : p c = false) :
    (l1 ++ c :: l2).takeWhile p = l1 := by
  induction l1 with
  | nil =>
    simp only [List.nil_append]
    exact List.takeWhile_cons_of_neg (by simp [hc])
  | cons a t ih =>
    simp only [List.all_cons, Bool.and_eq_true] at h1
    simp only [List.cons_append, List.takeWhile_cons_of_pos h1.1]
    rw [ih h1.2]

lemma dropWhile_app_eq {p : Char → Bool} {l1 l2 : List Char} {c : Char}
    (h1 : l1.all p = true) (hc : p c = false) :
    (l1 ++ c :: l2).dropWhile p = c :: l2 := by
  induction l1 with
  | nil =>
    simp only [List.nil_append]
    exact List.dropWhile_cons_of_neg (by simp [hc])
  | cons a t ih =>
    simp only [List.all_cons, Bool.and_eq_true] at h1
    simp only [List.cons_append, List.dropWhile_cons_of_pos h1.1]
    exact ih h1.2

lemma matchUDec_shape {cs m : List Char} (h : matchUDec cs = some m) :
    isUDecShape m = true := by
  simp only [matchUDec] at h
  by_cases h1 : (cs.takeWhile Char.isDigit).isEmpty
  · rw [if_pos h1] at h; simp at h
  · rw [if_neg h1] at h
    by_cases h2 : (cs.dropWhile Char.isDigit).head? = some '.'
    · rw [if_pos h2] at h
      by_cases h3 : ((cs.dropWhile Char.isDigit).tail.takeWhile Char.isDigit).isEmpty
      · rw [if_pos h3] at h; simp at h
      · rw [if_neg h3] at h
        obtain rfl : (cs.takeWhile Char.isDigit
            ++ '.' :: (cs.dropWhile Char.isDigit).tail.takeWhile Char.isDigit) = m := by
          simpa using h
        have hdig : ((cs.takeWhile Char.isDigit).all Char.isDigit) = true :=
          takeWhile_all_self _ _
        have hdot : Char.isDigit '.' = false := by decide
        unfold isUDecShape
        rw [takeWhile_app_eq hdig hdot, dropWhile_app_eq hdig hdot]
        simp [digits1, h1, h3, takeWhile_all_self]
    · rw [if_neg h2] at h; simp at h

/-- The first character of an unsigned-decimal-shaped string is a digit. -/
lemma isUDecShape_head {m : List Char} (h : isUDecShape m = true) :
    ∃ d t, m = d :: t ∧ Char.isDigit d = true := by
  cases m with
  | nil => simp [isUDecShape] at h
  | cons d t =>
    refine ⟨d, t, rfl, ?_⟩
    by_contra hd
    unfold isUDecShape at h
    rw [List.takeWhile_cons_of_neg (by simpa using hd)] at h
    simp at h

lemma matchDec_shape {cs m : List Char} (h : matchDec cs = some m) :
    isDecShape m = true := by
  cases cs with
  | nil => simp [matchDec] at h
  | cons c rest =>
    simp only [matchDec] at h
    by_cases hc : c = '-'
    · rw [if_pos hc] at h
      cases hu : matchUDec rest with
      | none => rw [hu] at h; simp at h
      | some m2 =>
        rw [hu] at h
        obtain rfl : '-' :: m2 = m := by simpa using h
        have h2 := matchUDec_shape hu
        simp [isDecShape, h2]
    · rw [if_neg hc] at h
      have hu := matchUDec_shape h
      obtain ⟨d, t, rfl, hd⟩ := isUDecShape_head hu
      have hne : d ≠ '-' := by
        intro hdd; subst hdd; exact absurd hd (by decide)
      simp [isDecShape, hne, hu]

lemma findEval_shape (cs : List Char) :
    findEval cs = [] ∨ isMateShape (findEval cs) = true ∨ isDecShape (findEval cs) = true := by
  induction cs with
  | nil => exact Or.inl rfl
  | cons c rest ih =>
    cases hm : matchMate (c :: rest) with
    | some m =>
      right; left
      simp only [findEval]
      rw [hm]
      exact matchMate_shape hm
    | none =>
      cases hd : matchDec (c :: rest) with
      | some m =>
        right; right
        simp only [findEval]
        rw [hm, hd]
        exact matchDec_shape hd
      | none =>
        simp only [findEval]
        rw [hm, hd]
        exact ih

lemma digits_no_hash {ds : List Char} (h : ds.all Char.isDigit = true) : '#' ∉ ds := by
  intro hm
  exact absurd ((List.all_eq_true.mp h) _ hm) (by decide)

lemma mateShape_parts {m : List Char} (h : isMateShape m = true) :
    ∃ t, m = '#' :: t ∧ '#' ∉ t := by
  cases m with
  | nil => simp [isMateShape] at h
  | cons c rest =>
    simp only [isMateShape, Bool.and_eq_true, decide_eq_true_eq] at h
    obtain ⟨rfl, hb⟩ := h
    refine ⟨rest, rfl, ?_⟩
    by_cases hh : rest.head? = some '-'
    · rw [if_pos hh] at hb
      cases rest with
      | nil => simp at hh
      | cons r2 t2 =>
        simp only [List.head?_cons, Option.some.injEq] at hh
        subst hh
        simp only [List.tail_cons, digits1, Bool.and_eq_true] at hb
        intro hm
        rcases List.mem_cons.mp hm with h1 | h1
        · exact absurd h1.symm (by decide)
        · exact digits_no_hash hb.2 h1
    · rw [if_neg hh] at hb
      simp only [digits1, Bool.and_eq_true] at hb
      exact digits_no_hash hb.2

lemma isUDec_no_hash {m : List Char} (h : isUDecShape m = true) : '#' ∉ m := by
  unfold isUDecShape at h
  simp only [Bool.and_eq_true, decide_eq_true_eq] at h
  obtain ⟨⟨-, hhd⟩, hdg⟩ := h
  cases hd : m.dropWhile Char.isDigit with
  | nil => rw [hd] at hhd; simp at hhd
  | cons c r2 =>
    rw [hd] at hhd hdg
    simp only [List.head?_cons, Option.some.injEq] at hhd
    subst hhd
    simp only [List.tail_cons, digits1, Bool.and_eq_true] at hdg
    intro hm
    rw [← List.takeWhile_append_dropWhile (p := Char.isDigit) (l := m), hd] at hm
    rcases List.mem_append.mp hm with h1 | h1
    · exact digits_no_hash (takeWhile_all_self _ _) h1
    · rcases List.mem_cons.mp h1 with h2 | h2
      · exact absurd h2.symm (by decide)
      · exact digits_no_hash hdg.2 h2

lemma decShape_no_hash {m : List Char} (h : isDecShape m = true) : '#' ∉ m := by
  unfold isDecShape at h
  by_cases hh : m.head? = some '-'
  · rw [if_pos hh] at h
    cases m with
    | nil => simp at hh
    | cons c t =>
      simp only [List.head?_cons, Option.some.injEq] at hh
      subst hh
      simp only [List.tail_cons] at h
      intro hm
      rcases List.mem_cons.mp hm with h1 | h1
      · exact absurd h1.symm (by decide)
      · exact isUDec_no_hash h h1
  · rw [if_neg hh] at h
    exact isUDec_no_hash h

lemma no_hash_no_dashhash {m : List Char} (h : '#' ∉ m) : isSub ['-', '#'] m = false :=
  isSub_eq_false (by decide) h

lemma mateShape_no_dashhash {m : List Char} (h : isMateShape m = true) :
    isSub ['-', '#'] m = false := by
  obtain ⟨t, rfl, ht⟩ := mateShape_parts h
  show (isPre ['-', '#'] ('#' :: t) || isSub ['-', '#'] t) = false
  rw [no_hash_no_dashhash ht]
  simp [isPre]

lemma mateShape_hash {m : List Char} (h : isMateShape m = true) :
    isSub ['#'] m = true := by
  obtain ⟨t, rfl, -⟩ := mateShape_parts h
  show (isPre ['#'] ('#' :: t) || isSub ['#'] t) = true
  simp [isPre]

/-- A mate-shaped evaluation string goes through the plain `#` branches:
`+∞` for White, `-∞` for Black. -/
lemma mateShape_norm {e : String} (h : isMateShape e.toList = true) :
    normW e = some (.val .pos_inf) ∧ ∀ w, normB e w = some (.val .neg_inf) := by
  have hd : pyIn "-#" e = false := mateShape_no_dashhash h
  have hh : pyIn "#" e = true := mateShape_hash h
  exact ⟨by simp [normW, hd, hh], fun w => by simp [normB, hd, hh]⟩

/-- **C10** (confirmed).  Every evaluation string the Ply Tokenizer
produces is empty, decimal-shaped (optional minus, digits, dot, digits)
or mate-shaped (`#`, optional minus, digits); consequently it never
contains the substring `-#`, so in the composed pipeline the Blunder
Classifier's `-#` branches are unreachable and every mate evaluation -
including `"#-N"` - is normalized through the plain `#` branch: `+∞` for
White, `-∞` for Black. -/
theorem claim10_eval_shapes :
    ∀ s : String, ∀ ply ∈ convert_gameplay s, ∀ h ∈ ply,
      (h.eval = "" ∨ isDecShape h.eval.toList = true ∨ isMateShape h.eval.toList = true)
      ∧ pyIn "-#" h.eval = false
      ∧ (isMateShape h.eval.toList = true →
          normW h.eval = some (.val .pos_inf)
          ∧ ∀ w, normB h.eval w = some (.val .neg_inf)) := by
  intro s ply hply h hh
  obtain ⟨chunk, -, rfl⟩ := List.mem_map.mp hply
  obtain ⟨p, -, rfl⟩ := List.mem_map.mp hh
  refine ⟨?_, ?_, fun hm => mateShape_norm hm⟩
  · show ((⟨findEval p⟩ : String) = "" ∨ _ ∨ _)
    rcases findEval_shape p with h0 | h1 | h2
    · left
      rw [h0]
    · right; right; exact h1
    · right; left; exact h2
  · show isSub ['-', '#'] (findEval p) = false
    rcases findEval_shape p with h0 | h1 | h2
    · rw [h0]; rfl
    · exact mateShape_no_dashhash h1
    · exact no_hash_no_dashhash (decShape_no_hash h2)

/-- Witness for C10 on the blob `"1. exd5 #-3"`, whose single half-move
carries the mate-against-the-mover evaluation `"#-3"`. -/
theorem claim10_witness :
    ((⟨"exd5", "#-3", "", []⟩ : Half).eval = ""
      ∨ isDecShape (⟨"exd5", "#-3", "", []⟩ : Half).eval.toList = true
      ∨ isMateShape (⟨"exd5", "#-3", "", []⟩ : Half).eval.toList = true)
    ∧ pyIn "-#" (⟨"exd5", "#-3", "", []⟩ : Half).eval = false
    ∧ (isMateShape (⟨"exd5", "#-3", "", []⟩ : Half).eval.toList = true →
        normW (⟨"exd5", "#-3", "", []⟩ : Half).eval = some (.val .pos_inf)
        ∧ ∀ w, normB (⟨"exd5", "#-3", "", []⟩ : Half).eval w = some (.val .neg_inf)) :=
  claim10_eval_shapes "1. exd5 #-3" [⟨"exd5", "#-3", "", []⟩] (by decide)
    ⟨"exd5", "#-3", "", []⟩ (by decide)

/-! ### C1 - the end-to-end scenario -/

/-- **C1** (corrected): counterexample.  On the claim's exact blob, ply 2
is a White-only ply `Nf3` - the trailing `Nc6` is not tokenized as a
Black half-move (no ellipsis marker precedes it) - and the pipeline
produces zero `BlunderEvent`s, not one: the `?!` in the blob follows the
evaluation `1.2`, not the move token, so no annotation is captured. -/
theorem claim1_counterexample :
    (convert_gameplay "1. e4 1.5 2... e5 1.2?! 2. Nf3 1.0 Nc6").drop 1 = [[⟨"Nf3", "1.0", "", []⟩]]
    ∧ (add_remaining_pieces (convert_gameplay "1. e4 1.5 2... e5 1.2?! 2. Nf3 1.0 Nc6")).map find_blunder
        = some (some []) := by
  decide

/-- **C1 amended**: on the exact blob, the Tokenizer yields two plies:
ply 1 with White `e4` eval `1.5` no annotation and Black `e5` eval `1.2`
with NO annotation (the `?!` attaches to the evaluation token, not the
move token, so the tokenizer does not capture it); ply 2 with only a
White half-move `Nf3` eval `1.0` (`Nc6` is absorbed, since no ellipsis
marker precedes it).  The Material Tracker assigns 16 everywhere, and the
Blunder Classifier emits no event at all. -/
theorem claim1_end_to_end :
    convert_gameplay "1. e4 1.5 2... e5 1.2?! 2. Nf3 1.0 Nc6" =
      [[⟨"e4", "1.5", "", []⟩, ⟨"e5", "1.2", "", []⟩], [⟨"Nf3", "1.0", "", []⟩]]
    ∧ add_remaining_pieces (convert_gameplay "1. e4 1.5 2... e5 1.2?! 2. Nf3 1.0 Nc6") =
      some [[⟨"e4", "1.5", "", [16]⟩, ⟨"e5", "1.2", "", [16]⟩],
            [⟨"Nf3", "1.0", "", [16]⟩]]
    ∧ find_blunder [[⟨"e4", "1.5", "", [16]⟩, ⟨"e5", "1.2", "", [16]⟩],
            [⟨"Nf3", "1.0", "", [16]⟩]] = some [] := by
  decide

/-! ### C3, C4, C6 - the Blunder Classifier -/

lemma eval_neg_sub (a b : EVal) : (EVal.sub a b).neg = EVal.sub b a := by
  cases a <;> cases b <;> simp [EVal.sub, EVal.neg]

/-- One scanned ply, fully evaluated: under the well-formedness the scan
itself requires (4-element half-move records, evaluations that normalize
to numbers, a numeric `prior`), the step produces the White event exactly
when White's glyph is bad, then the Black event exactly when Black's glyph
is bad, and hands Black's evaluation on as the new prior. -/
lemma blunderStep_eq {w b : Half} {r1 r2 : Int} {pv ewv ebv : EVal} {n : Nat}
    (hw : w.rem = [r1]) (hb : b.rem = [r2])
    (hnw : normW w.eval = some (.val ewv))
    (hnb : normB b.eval (.val ewv) = some (.val ebv)) :
    blunderStep (.val pv) n w b =
      some ((if isBad w.ann then [⟨n, "w", w.move, w.ann, EVal.sub pv ewv⟩] else [])
        ++ (if isBad b.ann then [⟨n, "b", b.move, b.ann, (EVal.sub ewv ebv).neg⟩] else []),
        .val ebv) := by
  unfold blunderStep
  rw [if_pos (by rw [hw, hb]; exact ⟨rfl, rfl⟩), hnw, Option.some_bind, hnb,
    Option.some_bind]
  by_cases hbw : isBad w.ann
  · rw [if_pos hbw, if_pos hbw]
    by_cases hbb : isBad b.ann
    · rw [if_pos hbb, if_pos hbb]; rfl
    · rw [if_neg hbb, if_neg hbb]; rfl
  · rw [if_neg hbw, if_neg hbw]
    by_cases hbb : isBad b.ann
    · rw [if_pos hbb, if_pos hbb]; rfl
    · rw [if_neg hbb, if_neg hbb]; rfl

/-- **C3** (confirmed).  The classifier starts from `prior = 0` at move
number 1; the bad-glyph test accepts exactly `?`, `??`, `?!` (never `!`,
`!!` or the empty annotation); and on every scanned two-half ply the
White event (delta `prior_black_eval - white_eval`) precedes the Black
event (delta `black_eval - white_eval`) in the output, an event appearing
if and only if that side's glyph is bad, with Black's evaluation carried
into the rest of the scan as the new prior. -/
theorem claim3_blunder_classification :
    (∀ g, find_blunder g = findBlunderAux (.val (.fin 0)) 1 g)
    ∧ (isBad "?" = true ∧ isBad "??" = true ∧ isBad "?!" = true
        ∧ isBad "!" = false ∧ isBad "!!" = false ∧ isBad "" = false)
    ∧ (∀ (w b : Half) (r1 r2 : Int) (pv ewv ebv : EVal) (n : Nat)
        (rest : List (List Half)),
        w.rem = [r1] → b.rem = [r2] →
        normW w.eval = some (.val ewv) →
        normB b.eval (.val ewv) = some (.val ebv) →
        findBlunderAux (.val pv) n ([w, b] :: rest) =
          (findBlunderAux (.val ebv) (n + 1) rest).map fun t =>
            (if isBad w.ann then [⟨n, "w", w.move, w.ann, EVal.sub pv ewv⟩] else [])
            ++ (if isBad b.ann then [⟨n, "b", b.move, b.ann, EVal.sub ebv ewv⟩] else [])
            ++ t) := by
  refine ⟨fun g => rfl, by decide, ?_⟩
  intro w b r1 r2 pv ewv ebv n rest hw hb hnw hnb
  show (blunderStep (.val pv) n w b).bind _ = _
  rw [blunderStep_eq hw hb hnw hnb, Option.some_bind]
  simp only [eval_neg_sub, List.append_assoc]

/-- Witness for C3 at a concrete scanned ply: White `Qd5` with `??` and
eval `#2`, Black `exd5` with `?!` and eval `-#1`. -/
theorem claim3_witness :
    findBlunderAux (.val (.fin 0)) 1
        [[⟨"Qd5", "#2", "??", [16]⟩, ⟨"exd5", "-#1", "?!", [15]⟩]] =
      (findBlunderAux (.val .pos_inf) 2 []).map fun t =>
        [⟨1, "w", "Qd5", "??", EVal.sub (.fin 0) .pos_inf⟩]
        ++ [⟨1, "b", "exd5", "?!", EVal.sub .pos_inf .pos_inf⟩] ++ t :=
  claim3_blunder_classification.2.2 ⟨"Qd5", "#2", "??", [16]⟩ ⟨"exd5", "-#1", "?!", [15]⟩
    16 15 (.fin 0) .pos_inf .pos_inf 1 [] rfl rfl (by decide) (by decide)

/-- **C6** (confirmed).  When Black's raw evaluation string is empty, the
classifier uses White's normalized evaluation in Black's place: the Black
blunder delta becomes `white_eval - white_eval` and White's evaluation is
carried into the rest of the scan as the new `prior_black_eval`. -/
theorem claim6_missing_black_eval :
    ∀ (w b : Half) (r1 r2 : Int) (pv ewv : EVal) (n : Nat) (rest : List (List Half)),
      b.eval = "" → w.rem = [r1] → b.rem = [r2] →
      normW w.eval = some (.val ewv) →
      findBlunderAux (.val pv) n ([w, b] :: rest) =
        (findBlunderAux (.val ewv) (n + 1) rest).map fun t =>
          (if isBad w.ann then [⟨n, "w", w.move, w.ann, EVal.sub pv ewv⟩] else [])
          ++ (if isBad b.ann then [⟨n, "b", b.move, b.ann, EVal.sub ewv ewv⟩] else [])
          ++ t := by
  intro w b r1 r2 pv ewv n rest hbe hw hb hnw
  have hnb : normB b.eval (.val ewv) = some (.val ewv) := by rw [hbe]; rfl
  show (blunderStep (.val pv) n w b).bind _ = _
  rw [blunderStep_eq hw hb hnw hnb, Option.some_bind]
  simp only [eval_neg_sub, List.append_assoc]

/-- Witness for C6: Black's empty evaluation replaced by White's `#3`. -/
theorem claim6_witness :
    findBlunderAux (.val (.fin 0)) 1
        [[⟨"Qd5", "#3", "?", [16]⟩, ⟨"e5", "", "??", [16]⟩]] =
      (findBlunderAux (.val .pos_inf) 2 []).map fun t =>
        [⟨1, "w", "Qd5", "?", EVal.sub (.fin 0) .pos_inf⟩]
        ++ [⟨1, "b", "e5", "??", EVal.sub .pos_inf .pos_inf⟩] ++ t :=
  claim6_missing_black_eval ⟨"Qd5", "#3", "?", [16]⟩ ⟨"e5", "", "??", [16]⟩
    16 16 (.fin 0) .pos_inf 1 [] rfl rfl rfl (by decide)

/-- The scan is cut at the first ply with fewer than two half-moves:
everything after it is ignored, whatever the prior and position. -/
lemma findBlunderAux_break (p : Slot) (n : Nat) (pre : List (List Half))
    (short : List Half) (post : List (List Half)) (hs : short.length < 2) :
    findBlunderAux p n (pre ++ short :: post) = findBlunderAux p n pre := by
  induction pre generalizing p n with
  | nil =>
    rcases short with _ | ⟨x, _ | ⟨y, t⟩⟩
    · rfl
    · rfl
    · simp only [List.length_cons] at hs
      omega
  | cons ply pre ih =>
    rcases ply with _ | ⟨h1, _ | ⟨h2, _ | ⟨h3, t3⟩⟩⟩
    · rfl
    · rfl
    · show (blunderStep p n h1 h2).bind _ = (blunderStep p n h1 h2).bind _
      cases hst : blunderStep p n h1 h2 with
      | none => rfl
      | some es_sb =>
        rw [Option.some_bind, Option.some_bind]
        exact congrArg _ (ih _ _)
    · rfl

lemma blunderStep_idx {p : Slot} {n : Nat} {w b : Half} {es : List Blunder} {s : Slot}
    (h : blunderStep p n w b = some (es, s)) :
    ∀ e ∈ es, e.idx = n := by
  unfold blunderStep at h
  by_cases hlen : w.rem.length = 1 ∧ b.rem.length = 1
  · rw [if_pos hlen] at h
    simp only [Option.bind_eq_some, Option.map_eq_some'] at h
    obtain ⟨sw, -, sb, -, we, hwe, be, hbe, heq⟩ := h
    obtain ⟨rfl, -⟩ : we ++ be = es ∧ sb = s := Prod.mk.injEq .. ▸ heq
    intro e he
    rcases List.mem_append.mp he with h1 | h1
    · by_cases hbw : isBad w.ann
      · rw [if_pos hbw] at hwe
        simp only [Option.map_eq_some'] at hwe
        obtain ⟨d, -, rfl⟩ := hwe
        rcases List.mem_singleton.mp h1 with rfl
        rfl
      · rw [if_neg hbw] at hwe
        obtain rfl : ([] : List Blunder) = we := by simpa using hwe
        cases h1
    · by_cases hbb : isBad b.ann
      · rw [if_pos hbb] at hbe
        simp only [Option.map_eq_some'] at hbe
        obtain ⟨d, -, rfl⟩ := hbe
        rcases List.mem_singleton.mp h1 with rfl
        rfl
      · rw [if_neg hbb] at hbe
        obtain rfl : ([] : List Blunder) = be := by simpa using hbe
        cases h1
  · rw [if_neg hlen] at h
    cases h

lemma findBlunderAux_idx {g : List (List Half)} :
    ∀ {p : Slot} {n : Nat} {l : List Blunder}, findBlunderAux p n g = some l →
      ∀ e ∈ l, e.idx < n + g.length := by
  induction g with
  | nil =>
    intro p n l h e he
    obtain rfl : ([] : List Blunder) = l := by simpa [findBlunderAux] using h
    cases he
  | cons ply rest ih =>
    intro p n l h e he
    rcases ply with _ | ⟨h1, _ | ⟨h2, _ | ⟨h3, t3⟩⟩⟩
    · obtain rfl : ([] : List Blunder) = l := by simpa [findBlunderAux] using h
      cases he
    · obtain rfl : ([] : List Blunder) = l := by simpa [findBlunderAux] using h
      cases he
    · replace h : (blunderStep p n h1 h2).bind _ = some l := h
      simp only [Option.bind_eq_some, Option.map_eq_some'] at h
      obtain ⟨⟨es, sb⟩, hst, t, hrec, rfl⟩ := h
      rcases List.mem_append.mp he with h1m | h1m
      · have := blunderStep_idx hst e h1m
        simp only [List.length_cons]
        omega
      · have := ih hrec e h1m
        simp only [List.length_cons] at this ⊢
        omega
    · cases h

/-- **C4** (confirmed).  The Blunder Classifier stops scanning at the
first ply lacking a Black half-move: the result equals the scan of the
plies before it, and no emitted event references that ply or any later
one - even when the White half-move of the short ply is annotated. -/
theorem claim4_early_exit :
    ∀ (pre post : List (List Half)) (short : List Half), short.length < 2 →
      find_blunder (pre ++ short :: post) = find_blunder pre
      ∧ ∀ l, find_blunder (pre ++ short :: post) = some l →
          ∀ e ∈ l, e.idx ≤ pre.length := by
  intro pre post short hs
  have h1 : find_blunder (pre ++ short :: post) = find_blunder pre :=
    findBlunderAux_break _ _ pre short post hs
  refine ⟨h1, ?_⟩
  intro l hl e he
  rw [h1] at hl
  have := findBlunderAux_idx hl e he
  omega

/-- Witness for C4: a White-only ply whose move carries `??` stops the
scan, and the trailing annotated ply after it produces nothing. -/
theorem claim4_witness :
    find_blunder
        ([[⟨"e4", "#2", "", [16]⟩, ⟨"e5", "#-1", "??", [16]⟩]]
          ++ [⟨"Qxf7", "#1", "??", [15]⟩]
            :: [[⟨"a3", "#2", "?", [15]⟩, ⟨"b6", "#-2", "", [15]⟩]]) =
      find_blunder [[⟨"e4", "#2", "", [16]⟩, ⟨"e5", "#-1", "??", [16]⟩]] :=
  (claim4_early_exit [[⟨"e4", "#2", "", [16]⟩, ⟨"e5", "#-1", "??", [16]⟩]]
    [[⟨"a3", "#2", "?", [15]⟩, ⟨"b6", "#-2", "", [15]⟩]]
    [⟨"Qxf7", "#1", "??", [15]⟩] (by decide)).1

/-! ### C2 - the Material Tracker -/

lemma whiteRems_cons (ply : List Half) (rest : List (List Half)) :
    whiteRems (ply :: rest) = headRems ply ++ whiteRems rest := by
  simp [whiteRems]

lemma blackRems_cons (ply : List Half) (rest : List (List Half)) :
    blackRems (ply :: rest) = tailRems ply ++ blackRems rest := by
  simp [blackRems]

lemma nonInc_cons_of {a : Int} {l : List Int} (h : ∀ v ∈ l, v ≤ a)
    (hl : nonInc l = true) : nonInc (a :: l) = true := by
  cases l with
  | nil => rfl
  | cons b t =>
    show (decide (b ≤ a) && nonInc (b :: t)) = true
    simp [h b (List.mem_cons_self _ _), hl]

lemma flatten_rems_nil {l : List Half} (h : ∀ x ∈ l, x.rem = ([] : List Int)) :
    (l.map Half.rem).flatten = [] := by
  induction l with
  | nil => rfl
  | cons x t ih =>
    simp only [List.map_cons, List.flatten_cons, h x (List.mem_cons_self _ _),
      List.nil_append]
    exact ih fun y hy => h y (List.mem_cons_of_mem _ hy)

/-- The invariant of the Material Tracker's loop: starting from counters
`wl`/`bl` with the pending append either absent or equal to the current
white counter, all White-half values it assigns lie in
`[wl - #(black captures), wl]` and form a non-increasing sequence, and
symmetrically for Black-half values. -/
lemma addRemAux_spec :
    ∀ (g : List (List Half)) (wl bl : Int) (pend : Option Int) (g' : List (List Half)),
      (pend = none ∨ pend = some wl) →
      allClean g →
      addRemAux wl bl pend g = some g' →
      (∀ v ∈ whiteRems g', v ≤ wl ∧ wl - (bCap g : Int) ≤ v)
      ∧ (∀ v ∈ blackRems g', v ≤ bl ∧ bl - (wCap g : Int) ≤ v)
      ∧ nonInc (whiteRems g') = true
      ∧ nonInc (blackRems g') = true := by
  intro g
  induction g with
  | nil =>
    intro wl bl pend g' _ _ h
    obtain rfl : ([] : List (List Half)) = g' := by simpa [addRemAux] using h
    exact ⟨by simp [whiteRems], by simp [blackRems], rfl, rfl⟩
  | cons ply rest ih =>
    intro wl bl pend g' hp hc h
    have hcrest : allClean rest := fun q hq => hc q (List.mem_cons_of_mem _ hq)
    have hbert : (0 : Int) ≤ (bCap rest : Int) := Int.natCast_nonneg _
    have hwert : (0 : Int) ≤ (wCap rest : Int) := Int.natCast_nonneg _
    rcases ply with _ | ⟨w, t⟩
    · rcases hp with rfl | rfl <;> simp [addRemAux] at h
    · have hwrem : w.rem = [] := hc _ (List.mem_cons_self _ _) w (List.mem_cons_self _ _)
      rcases t with _ | ⟨b, _ | ⟨c, t3⟩⟩
      · -- a White-only ply [w]
        have hcapB : bCap ([w] :: rest) = bCap rest := by
          simp [bCap, List.countP_cons, bCapB]
        have hcapW : (wCap ([w] :: rest) : Int)
            = (wCap rest : Int) + (if pyIn "x" w.move then 1 else 0) := by
          simp only [wCap, List.countP_cons, wCapB]
          by_cases hx : pyIn "x" w.move <;> simp [hx]
        rcases hp with rfl | rfl
        · simp only [addRemAux, Option.map_eq_some'] at h
          obtain ⟨out, hout, rfl⟩ := h
          obtain ⟨iw, ib, inw, inb⟩ := ih _ _ _ out (Or.inr rfl) hcrest hout
          have hW : whiteRems ([w] :: out) = whiteRems out := by
            simp [whiteRems_cons, headRems, hwrem]
          have hB : blackRems ([w] :: out) = blackRems out := by
            simp [blackRems_cons, tailRems]
          rw [hW, hB, hcapB]
          refine ⟨iw, fun v hv => ?_, inw, inb⟩
          have hbd := ib v hv
          rw [hcapW]
          by_cases hx : pyIn "x" w.move <;> simp [hx] at hbd ⊢ <;> omega
        · simp only [addRemAux, Option.map_eq_some'] at h
          obtain ⟨out, hout, rfl⟩ := h
          obtain ⟨iw, ib, inw, inb⟩ := ih _ _ _ out (Or.inr rfl) hcrest hout
          have hW : whiteRems ([({ w with rem := w.rem ++ [wl] } : Half)] :: out)
              = wl :: whiteRems out := by
            simp [whiteRems_cons, headRems, hwrem]
          have hB : blackRems ([({ w with rem := w.rem ++ [wl] } : Half)] :: out)
              = blackRems out := by
            simp [blackRems_cons, tailRems]
          rw [hW, hB, hcapB]
          refine ⟨?_, ?_, ?_, inb⟩
          · intro v hv
            rcases List.mem_cons.mp hv with rfl | hv
            · exact ⟨le_refl _, by omega⟩
            · exact iw v hv
          · intro v hv
            have hbd := ib v hv
            rw [hcapW]
            by_cases hx : pyIn "x" w.move <;> simp [hx] at hbd ⊢ <;> omega
          · exact nonInc_cons_of (fun v hv => (iw v hv).1) inw
      · -- a two-half ply [w, b]
        have hbrem : b.rem = [] :=
          hc _ (List.mem_cons_self _ _) b (by simp)
        have hcapB : (bCap ([w, b] :: rest) : Int)
            = (bCap rest : Int) + (if pyIn "x" b.move then 1 else 0) := by
          simp only [bCap, List.countP_cons, bCapB]
          by_cases hx : pyIn "x" b.move <;> simp [hx]
        have hcapW : (wCap ([w, b] :: rest) : Int)
            = (wCap rest : Int) + (if pyIn "x" w.move then 1 else 0) := by
          simp only [wCap, List.countP_cons, wCapB]
          by_cases hx : pyIn "x" w.move <;> simp [hx]
        rcases hp with rfl | rfl
        · simp only [addRemAux, Option.map_eq_some'] at h
          obtain ⟨out, hout, rfl⟩ := h
          obtain ⟨iw, ib, inw, inb⟩ := ih _ _ _ out (Or.inr rfl) hcrest hout
          have hW : whiteRems
              ([w, ({ b with rem := b.rem
                  ++ [if pyIn "x" w.move then bl - 1 else bl] } : Half)] :: out)
              = whiteRems out := by
            simp [whiteRems_cons, headRems, hwrem]
          have hB : blackRems
              ([w, ({ b with rem := b.rem
                  ++ [if pyIn "x" w.move then bl - 1 else bl] } : Half)] :: out)
              = (if pyIn "x" w.move then bl - 1 else bl) :: blackRems out := by
            simp [blackRems_cons, tailRems, hbrem]
          rw [hW, hB]
          refine ⟨?_, ?_, inw, ?_⟩
          · intro v hv
            have hbd := iw v hv
            rw [hcapB]
            by_cases hx : pyIn "x" b.move <;> simp [hx] at hbd ⊢ <;> omega
          · intro v hv
            rw [hcapW]
            rcases List.mem_cons.mp hv with rfl | hv
            · by_cases hx : pyIn "x" w.move <;> simp only [hx, if_true, if_false,
                Bool.false_eq_true, ite_true, ite_false] <;> omega
            · have hbd := ib v hv
              by_cases hx : pyIn "x" w.move <;> simp [hx] at hbd ⊢ <;> omega
          · exact nonInc_cons_of (fun v hv => (ib v hv).1) inb
        · simp only [addRemAux, Option.map_eq_some'] at h
          obtain ⟨out, hout, rfl⟩ := h
          obtain ⟨iw, ib, inw, inb⟩ := ih _ _ _ out (Or.inr rfl) hcrest hout
          have hW : whiteRems
              ([({ w with rem := w.rem ++ [wl] } : Half),
                ({ b with rem := b.rem
                  ++ [if pyIn "x" w.move then bl - 1 else bl] } : Half)] :: out)
              = wl :: whiteRems out := by
            simp [whiteRems_cons, headRems, hwrem]
          have hB : blackRems
              ([({ w with rem := w.rem ++ [wl] } : Half),
                ({ b with rem := b.rem
                  ++ [if pyIn "x" w.move then bl - 1 else bl] } : Half)] :: out)
              = (if pyIn "x" w.move then bl - 1 else bl) :: blackRems out := by
            simp [blackRems_cons, tailRems, hbrem]
          rw [hW, hB]
          refine ⟨?_, ?_, ?_, ?_⟩
          · intro v hv
            rw [hcapB]
            rcases List.mem_cons.mp hv with rfl | hv
            · by_cases hx : pyIn "x" b.move <;> simp only [hx, if_true, if_false,
                Bool.false_eq_true, ite_true, ite_false] <;> omega
            · have hbd := iw v hv
              by_cases hx : pyIn "x" b.move <;> simp [hx] at hbd ⊢ <;> omega
          · intro v hv
            rw [hcapW]
            rcases List.mem_cons.mp hv with rfl | hv
            · by_cases hx : pyIn "x" w.move <;> simp only [hx, if_true, if_false,
                Bool.false_eq_true, ite_true, ite_false] <;> omega
            · have hbd := ib v hv
              by_cases hx : pyIn "x" w.move <;> simp [hx] at hbd ⊢ <;> omega
          · refine nonInc_cons_of (fun v hv => ?_) inw
            have hbd := iw v hv
            by_cases hx : pyIn "x" b.move <;> simp [hx] at hbd <;> omega
          · exact nonInc_cons_of (fun v hv => (ib v hv).1) inb
      · -- a ply of three or more half-moves
        have htail : ∀ x ∈ (b :: c :: t3), x.rem = ([] : List Int) :=
          fun x hx => hc _ (List.mem_cons_self _ _) x (List.mem_cons_of_mem _ hx)
        have hcapB : bCap ((w :: b :: c :: t3) :: rest) = bCap rest := by
          simp [bCap, List.countP_cons, bCapB]
        have hcapW : (wCap ((w :: b :: c :: t3) :: rest) : Int)
            = (wCap rest : Int) + (if pyIn "x" w.move then 1 else 0) := by
          simp only [wCap, List.countP_cons, wCapB]
          by_cases hx : pyIn "x" w.move <;> simp [hx]
        rcases hp with rfl | rfl
        · simp only [addRemAux, Option.map_eq_some'] at h
          obtain ⟨out, hout, rfl⟩ := h
          obtain ⟨iw, ib, inw, inb⟩ := ih _ _ _ out (Or.inr rfl) hcrest hout
          have hW : whiteRems ((w :: b :: c :: t3) :: out) = whiteRems out := by
            simp [whiteRems_cons, headRems, hwrem]
          have hB : blackRems ((w :: b :: c :: t3) :: out) = blackRems out := by
            rw [blackRems_cons]
            have : tailRems (w :: b :: c :: t3) = [] := flatten_rems_nil htail
            rw [this, List.nil_append]
          rw [hW, hB, hcapB]
          refine ⟨iw, fun v hv => ?_, inw, inb⟩
          have hbd := ib v hv
          rw [hcapW]
          by_cases hx : pyIn "x" w.move <;> simp [hx] at hbd ⊢ <;> omega
        · simp only [addRemAux, Option.map_eq_some'] at h
          obtain ⟨out, hout, rfl⟩ := h
          obtain ⟨iw, ib, inw, inb⟩ := ih _ _ _ out (Or.inr rfl) hcrest hout
          have hW : whiteRems
              ((({ w with rem := w.rem ++ [wl] } : Half) :: b :: c :: t3) :: out)
              = wl :: whiteRems out := by
            simp [whiteRems_cons, headRems, hwrem]
          have hB : blackRems
              ((({ w with rem := w.rem ++ [wl] } : Half) :: b :: c :: t3) :: out)
              = blackRems out := by
            rw [blackRems_cons]
            have : tailRems (({ w with rem := w.rem ++ [wl] } : Half) :: b :: c :: t3)
                = [] := flatten_rems_nil htail
            rw [this, List.nil_append]
          rw [hW, hB, hcapB]
          refine ⟨?_, ?_, ?_, inb⟩
          · intro v hv
            rcases List.mem_cons.mp hv with rfl | hv
            · exact ⟨le_refl _, by omega⟩
            · exact iw v hv
          · intro v hv
            have hbd := ib v hv
            rw [hcapW]
            by_cases hx : pyIn "x" w.move <;> simp [hx] at hbd ⊢ <;> omega
          · exact nonInc_cons_of (fun v hv => (iw v hv).1) inw

/-- The loop never touches the first ply's first half-move when no append
is pending for it: the output starts with the same half-move. -/
lemma addRemAux_none_head {wl bl : Int} {h0 : Half} {tg : List Half}
    {grest out : List (List Half)}
    (h : addRemAux wl bl none ((h0 :: tg) :: grest) = some out) :
    ∃ t2 rest2, out = (h0 :: t2) :: rest2 := by
  rcases tg with _ | ⟨b, _ | ⟨c, t3⟩⟩ <;>
  · simp only [addRemAux, Option.map_eq_some'] at h
    obtain ⟨o, -, rfl⟩ := h
    exact ⟨_, _, rfl⟩

/-- **C2 amended**.  For a tokenizer-produced game (all `rem` slots
unset) on which the Material Tracker succeeds: the first assigned value
(White of ply 1) is exactly 16; the White-half values form a
non-increasing sequence, as do the Black-half values; every White-half
value lies in `[16 - #(Black captures), 16]` and every Black-half value
in `[16 - #(White captures), 16]` - so all values are at most 16, and
they stay at least 0 whenever each side captures at most 16 times.  The
INTERLEAVED half-move sequence, however, need not be non-increasing, and
values drop below 0 when a side records more than 16 captures (see the
counterexample). -/
theorem claim2_material_tracking :
    ∀ (g g' : List (List Half)), allClean g → add_remaining_pieces g = some g' →
      (remSeq g').head? = some 16
      ∧ nonInc (whiteRems g') = true
      ∧ nonInc (blackRems g') = true
      ∧ (∀ v ∈ whiteRems g', v ≤ 16 ∧ 16 - (bCap g : Int) ≤ v)
      ∧ (∀ v ∈ blackRems g', v ≤ 16 ∧ 16 - (wCap g : Int) ≤ v) := by
  intro g g' hc h
  unfold add_remaining_pieces at h
  cases haux : addRemAux 16 16 none g with
  | none => rw [haux] at h; cases h
  | some out =>
    rw [haux] at h
    rcases g with _ | ⟨ply1, grest⟩
    · obtain rfl : ([] : List (List Half)) = out := by
        simpa [addRemAux] using haux
      cases h
    · rcases ply1 with _ | ⟨h0, tg⟩
      · simp [addRemAux] at haux
      · obtain ⟨t2, rest2, rfl⟩ := addRemAux_none_head haux
        simp only [finalizeRem, Option.some.injEq] at h
        subst h
        have h0rem : h0.rem = [] :=
          hc _ (List.mem_cons_self _ _) h0 (List.mem_cons_self _ _)
        obtain ⟨iw, ib, inw, inb⟩ := addRemAux_spec _ _ _ _ _ (Or.inl rfl) hc haux
        have hWout : whiteRems ((h0 :: t2) :: rest2) = whiteRems rest2 := by
          simp [whiteRems_cons, headRems, h0rem]
        have hW : whiteRems ((({ h0 with rem := h0.rem ++ [16] } : Half) :: t2) :: rest2)
            = 16 :: whiteRems rest2 := by
          simp [whiteRems_cons, headRems, h0rem]
        have hB : blackRems ((({ h0 with rem := h0.rem ++ [16] } : Half) :: t2) :: rest2)
            = blackRems ((h0 :: t2) :: rest2) := by
          rw [blackRems_cons, blackRems_cons]
          rfl
        rw [hWout] at iw inw
        refine ⟨?_, ?_, ?_, ?_, ?_⟩
        · simp [remSeq, h0rem]
        · rw [hW]
          exact nonInc_cons_of (fun v hv => (iw v hv).1) inw
        · rw [hB]
          exact inb
        · intro v hv
          rw [hW] at hv
          rcases List.mem_cons.mp hv with rfl | hv
          · refine ⟨le_refl _, ?_⟩
            have hb0 : (0 : Int) ≤ (bCap ((h0 :: tg) :: grest) : Int) :=
              Int.natCast_nonneg _
            omega
          · exact iw v hv
        · intro v hv
          rw [hB] at hv
          exact ib v hv

/-- **C2** (corrected): counterexample.  On a 17-ply game in which White
captures on every move and Black never does, the assigned values in
half-move order are `16, 15, 16, 14, ...` - NOT non-increasing - and the
Black value of ply 17 is `-1`, outside `[0, 16]`. -/
theorem claim2_counterexample :
    (add_remaining_pieces
        (List.replicate 17 [⟨"dxe5", "", "", []⟩, ⟨"a6", "", "", []⟩])).map
      (fun g => nonInc (remSeq g)) = some false
    ∧ (add_remaining_pieces
        (List.replicate 17 [⟨"dxe5", "", "", []⟩, ⟨"a6", "", "", []⟩])).map
      (fun g => (remSeq g).all fun v => 0 ≤ v && v ≤ 16) = some false := by
  decide

/-- Witness for C2 on a small concrete game: Black captures at ply 1, so
the White value of ply 2 is 15. -/
theorem claim2_witness :
    (remSeq [[⟨"e4", "", "", [16]⟩, ⟨"dxe5", "", "", [16]⟩],
        [⟨"Nf3", "", "", [15]⟩]]).head? = some 16
    ∧ nonInc (whiteRems [[⟨"e4", "", "", [16]⟩, ⟨"dxe5", "", "", [16]⟩],
        [⟨"Nf3", "", "", [15]⟩]]) = true
    ∧ nonInc (blackRems [[⟨"e4", "", "", [16]⟩, ⟨"dxe5", "", "", [16]⟩],
        [⟨"Nf3", "", "", [15]⟩]]) = true
    ∧ (∀ v ∈ whiteRems [[⟨"e4", "", "", [16]⟩, ⟨"dxe5", "", "", [16]⟩],
        [⟨"Nf3", "", "", [15]⟩]],
        v ≤ 16 ∧ 16 - (bCap [[⟨"e4", "", "", []⟩, ⟨"dxe5", "", "", []⟩],
          [⟨"Nf3", "", "", []⟩]] : Int) ≤ v)
    ∧ (∀ v ∈ blackRems [[⟨"e4", "", "", [16]⟩, ⟨"dxe5", "", "", [16]⟩],
        [⟨"Nf3", "", "", [15]⟩]],
        v ≤ 16 ∧ 16 - (wCap [[⟨"e4", "", "", []⟩, ⟨"dxe5", "", "", []⟩],
          [⟨"Nf3", "", "", []⟩]] : Int) ≤ v) :=
  claim2_material_tracking
    [[⟨"e4", "", "", []⟩, ⟨"dxe5", "", "", []⟩], [⟨"Nf3", "", "", []⟩]]
    [[⟨"e4", "", "", [16]⟩, ⟨"dxe5", "", "", [16]⟩], [⟨"Nf3", "", "", [15]⟩]]
    (by decide) (by decide)

end ChessBlunders
